import Mathlib

/-!
Verification of the SymSpell spelling-correction engine (Go sources) against
its natural-language specification.

Modelling conventions used throughout this development:

* A Go string is modelled as its sequence of Unicode code points
  (`GoStr := List ℕ`); this corresponds to valid-UTF-8 Go strings, which is
  the shape of every string handled by the engine.  The byte-level view
  required by some code paths is recovered with `utf8Bytes` (Go's UTF-8
  encoder), so `len(s)` in Go byte terms is `(utf8Bytes s).length`.
* Go `int` values are modelled as `ℤ`; Go `uint32` values as `ℕ` together
  with explicit saturation at `2^32 - 1` where the code saturates.
  The only products formed (`count * FrequencyMultiplier`) are modelled in
  exact arithmetic; the Go code computes them in 64-bit `int`.
* Go maps used as sets are modelled as duplicate-free `List`s (insertion
  order), and Go maps used as dictionaries as association lists; only
  presence/value semantics of the maps matter to the claims, and map
  iteration order (unspecified in Go) is fixed to insertion order.
* The in-place rolling row buffers of the distance kernels are modelled by
  total row functions `ℕ → ℕ`; array cells that the Go code never writes in
  a row are modelled with the sentinel value the code guarantees for every
  cell it actually reads (`limit = k + 1` outside the band), and `curr[0]=i`.
* Unbounded `for` loops (the candidate frontier of `Lookup`) take an explicit
  fuel argument; fuel exhaustion returns the state reached so far.  All
  universal theorems below hold for every fuel value and the concrete
  evaluations use fuel large enough for the loop to finish.
-/

/-- A Go string, as its list of Unicode code points. -/
abbrev GoStr := List ℕ

/-- UTF-8 encoding of a single code point, as Go encodes it when building a
string from runes (invalid scalar values encode as U+FFFD). -/
def utf8EncodeChar (c : ℕ) : List ℕ :=
  if c < 0x80 then [c]
  else if c < 0x800 then [0xC0 + c / 0x40, 0x80 + c % 0x40]
  else if 0xD800 ≤ c ∧ c < 0xE000 then [0xEF, 0xBF, 0xBD]
  else if c < 0x10000 then [0xE0 + c / 0x1000, 0x80 + c / 0x40 % 0x40, 0x80 + c % 0x40]
  else if c ≤ 0x10FFFF then
    [0xF0 + c / 0x40000, 0x80 + c / 0x1000 % 0x40, 0x80 + c / 0x40 % 0x40, 0x80 + c % 0x40]
  else [0xEF, 0xBF, 0xBD]

/-- The UTF-8 bytes of a Go string; `len(s)` in Go is the length of this list. -/
def utf8Bytes (s : GoStr) : List ℕ :=
  (s.map utf8EncodeChar).flatten

/-- Byte length of a Go string (Go `len(s)`). -/
def goByteLen (s : GoStr) : ℕ :=
  (utf8Bytes s).length

/-- Go function `isASCII`: every byte is below `utf8.RuneSelf` (0x80), which
for valid UTF-8 is equivalent to every code point being below 128. -/
def goIsASCII (s : GoStr) : Bool :=
  s.all (fun c => c < 128)

/-! ## The Damerau–Levenshtein kernels (`src/unnamed/part_000`)

The byte kernel (`damerauLevenshteinDistance`, `damerauLevenshteinDistanceMax`)
and the rune kernel (`...Runes`, `...MaxRunes`) have element-for-element
identical bodies in Go, operating on `[]byte`-indexed and `[]rune`-indexed
sequences respectively.  Both are therefore instances of one generic dynamic
program over `List ℕ` (`dlRow` / `dlbRow` below); the byte versions are
applied to `utf8Bytes` of the strings and the rune versions to the code-point
lists themselves. -/

/-- Substitution cost of DP cell `(i, j)` (`1 ≤ i`, `1 ≤ j`): Go
`cost = 0; if a[i-1] != b[j-1] { cost = 1 }`. -/
def dlCost (a b : List ℕ) (i j : ℕ) : ℕ :=
  if a.getD (i - 1) 0 ≠ b.getD (j - 1) 0 then 1 else 0

/-- Guard of the adjacent-transposition transition at DP cell `(i, j)`:
Go `i > 1 && j > 1 && a[i-1] == b[j-2] && a[i-2] == b[j-1]`. -/
def dlTransOk (a b : List ℕ) (i j : ℕ) : Prop :=
  1 < i ∧ 1 < j ∧ a.getD (i - 1) 0 = b.getD (j - 2) 0 ∧ a.getD (i - 2) 0 = b.getD (j - 1) 0

instance (a b : List ℕ) (i j : ℕ) : Decidable (dlTransOk a b i j) := by
  unfold dlTransOk
  infer_instance

/-- One row of the full (unbounded) Damerau–Levenshtein DP: Go's inner loop of
`damerauLevenshteinDistance` computing `curr` from rows `prev2` and `prev`,
with `curr[0] = i`. -/
def dlStep (a b : List ℕ) (prev2 prev : ℕ → ℕ) (i : ℕ) : ℕ → ℕ
  | 0 => i
  | j + 1 =>
    let c := dlCost a b i (j + 1)
    let d1 := min (prev (j + 1) + 1) (min (dlStep a b prev2 prev i j + 1) (prev j + c))
    if dlTransOk a b i (j + 1) then min d1 (prev2 (j - 1) + c) else d1

/-- Row `i` of the full Damerau–Levenshtein DP (Go's rolling rows unrolled:
row 0 is the initial `prev[j] = j`, and each later row is computed from the
two rows before it; row 1 never reads `prev2` because the transposition guard
requires `i > 1`). -/
def dlRow (a b : List ℕ) : ℕ → ℕ → ℕ
  | 0 => fun j => j
  | 1 => dlStep a b (fun _ => 0) (dlRow a b 0) 1
  | i + 2 => dlStep a b (dlRow a b i) (dlRow a b (i + 1)) (i + 2)

/-- The full Damerau–Levenshtein distance: Go `damerauLevenshteinDistance`
(and the textually identical `damerauLevenshteinDistanceRunes`), returning
`prev[n]` after `m` rows, with the `m == 0` / `n == 0` early returns. -/
def dlFull (a b : List ℕ) : ℕ :=
  if a.length = 0 then b.length
  else if b.length = 0 then a.length
  else dlRow a b a.length b.length

/-- Band lower column bound for row `i`: Go `jStart := 1; if i > k { jStart = i - k }`. -/
def bandLo (k i : ℕ) : ℕ :=
  if k < i then i - k else 1

/-- Band upper column bound for row `i`: Go `jEnd := n; if jEnd > i+k { jEnd = i + k }`. -/
def bandHi (n k i : ℕ) : ℕ :=
  min n (i + k)

/-- One row of the banded Damerau–Levenshtein DP (`damerauLevenshteinDistanceMax`):
in-band cells follow the same recurrence as `dlStep`; `curr[0] = i`; every
out-of-band cell is the sentinel `limit = k + 1` (the Go code writes the
sentinel at exactly the out-of-band positions it later reads, namely
`curr[jStart-1]` and `curr[jEnd+1]`, and never reads any other out-of-band
cell of the reused buffers). -/
def dlbStep (a b : List ℕ) (k n : ℕ) (prev2 prev : ℕ → ℕ) (i : ℕ) : ℕ → ℕ
  | 0 => i
  | j + 1 =>
    if bandLo k i ≤ j + 1 ∧ j + 1 ≤ bandHi n k i then
      let c := dlCost a b i (j + 1)
      let d1 := min (prev (j + 1) + 1) (min (dlbStep a b k n prev2 prev i j + 1) (prev j + c))
      if dlTransOk a b i (j + 1) then min d1 (prev2 (j - 1) + c) else d1
    else k + 1

/-- Row `i` of the banded DP; row 0 is Go's initialisation
`prev[j] = j` for `j ≤ k`, else `limit`. -/
def dlbRow (a b : List ℕ) (k n : ℕ) : ℕ → ℕ → ℕ
  | 0 => fun j => if j ≤ k then j else k + 1
  | 1 => dlbStep a b k n (fun _ => 0) (dlbRow a b k n 0) 1
  | i + 2 => dlbStep a b k n (dlbRow a b k n i) (dlbRow a b k n (i + 1)) (i + 2)

/-- Go's `rowMin`: the minimum of the in-band cells of row `i`, starting from
`limit = k + 1`. -/
def dlbRowMin (a b : List ℕ) (k n i : ℕ) : ℕ :=
  ((List.range' (bandLo k i) (bandHi n k i + 1 - bandLo k i)).map
    (dlbRow a b k n i)).foldl min (k + 1)

/-- The outer row loop of `damerauLevenshteinDistanceMax`, processing rows
`i, i+1, …` (`r` rows remaining): abort with `k + 1` as soon as a row minimum
exceeds `k`, otherwise finish with Go's final
`if prev[n] > k { return k + 1 }; return prev[n]` on the last computed row. -/
def dlbLoop (a b : List ℕ) (k n : ℕ) : ℕ → ℕ → ℕ
  | i, 0 => if k < dlbRow a b k n (i - 1) n then k + 1 else dlbRow a b k n (i - 1) n
  | i, r + 1 => if k < dlbRowMin a b k n i then k + 1 else dlbLoop a b k n (i + 1) r

/-- The banded Damerau–Levenshtein distance: Go `damerauLevenshteinDistanceMax`
(and the textually identical `damerauLevenshteinDistanceMaxRunes`), including
the `m == 0` / `n == 0` early returns and the `|m-n| > k` length guard. -/
def dlbFull (a b : List ℕ) (k : ℕ) : ℕ :=
  if a.length = 0 then (if b.length ≤ k then b.length else k + 1)
  else if b.length = 0 then (if a.length ≤ k then a.length else k + 1)
  else if b.length + k < a.length ∨ a.length + k < b.length then k + 1
  else dlbLoop a b k b.length 1 a.length

/-- Go `damerauLevenshteinDistance`: the full DP on the byte sequences. -/
def damerauLevenshteinDistance (a b : List ℕ) : ℕ :=
  dlFull a b

/-- Go `damerauLevenshteinDistanceRunes`: the full DP on the rune sequences
(the Go body is element-for-element identical to the byte variant). -/
def damerauLevenshteinDistanceRunes (a b : List ℕ) : ℕ :=
  dlFull a b

/-- Go `damerauLevenshteinDistanceMax`: the banded DP on the byte sequences. -/
def damerauLevenshteinDistanceMax (a b : List ℕ) (k : ℕ) : ℕ :=
  dlbFull a b k

/-- Go `damerauLevenshteinDistanceMaxRunes`: the banded DP on the rune
sequences (the Go body is element-for-element identical to the byte variant). -/
def damerauLevenshteinDistanceMaxRunes (a b : List ℕ) (k : ℕ) : ℕ :=
  dlbFull a b k

/-- The `Type` tag of the edit-distance comparer (Go constant
`DamerauLevenshtein`). -/
def DamerauLevenshtein : String :=
  ("DamerauLevenshtein")

/-- Go method `EditDistance.Distance`: dispatches on the comparer type; for
`DamerauLevenshtein` it uses the byte kernel when both inputs are pure ASCII
and the rune kernel otherwise, and returns 0 for unknown types. -/
def goDistance (typ : String) (a b : GoStr) : ℕ :=
  if typ = DamerauLevenshtein then
    if goIsASCII a ∧ goIsASCII b then damerauLevenshteinDistance (utf8Bytes a) (utf8Bytes b)
    else damerauLevenshteinDistanceRunes a b
  else 0

/-- Go method `EditDistance.DistanceMax`, dispatching like `goDistance`. -/
def goDistanceMax (typ : String) (a b : GoStr) (k : ℕ) : ℕ :=
  if typ = DamerauLevenshtein then
    if goIsASCII a ∧ goIsASCII b then
      damerauLevenshteinDistanceMax (utf8Bytes a) (utf8Bytes b) k
    else damerauLevenshteinDistanceMaxRunes a b k
  else 0

/-! ## Kernel lemmas: the full DP -/

lemma dlCost_le_one (a b : List ℕ) (i j : ℕ) : dlCost a b i j ≤ 1 := by
  unfold dlCost
  split <;> omega

lemma dlRow_zero_left (a b : List ℕ) (j : ℕ) : dlRow a b 0 j = j := rfl

lemma dlRow_col_zero (a b : List ℕ) (i : ℕ) : dlRow a b i 0 = i := by
  match i with
  | 0 => rfl
  | 1 => rfl
  | i + 2 => rfl

lemma dlStep_succ (a b : List ℕ) (p2 p : ℕ → ℕ) (i j : ℕ) :
    dlStep a b p2 p i (j + 1) =
      if dlTransOk a b i (j + 1) then
        min (min (p (j + 1) + 1)
          (min (dlStep a b p2 p i j + 1) (p j + dlCost a b i (j + 1))))
          (p2 (j - 1) + dlCost a b i (j + 1))
      else
        min (p (j + 1) + 1) (min (dlStep a b p2 p i j + 1) (p j + dlCost a b i (j + 1))) :=
  rfl

/-- Unfolding equation of the full DP at an interior cell. -/
lemma dlRow_succ_succ (a b : List ℕ) (i j : ℕ) :
    dlRow a b (i + 1) (j + 1) =
      if dlTransOk a b (i + 1) (j + 1) then
        min (min (dlRow a b i (j + 1) + 1)
          (min (dlRow a b (i + 1) j + 1) (dlRow a b i j + dlCost a b (i + 1) (j + 1))))
          (dlRow a b (i - 1) (j - 1) + dlCost a b (i + 1) (j + 1))
      else
        min (dlRow a b i (j + 1) + 1)
          (min (dlRow a b (i + 1) j + 1) (dlRow a b i j + dlCost a b (i + 1) (j + 1))) := by
  match i with
  | 0 =>
    have hng : ¬ dlTransOk a b 1 (j + 1) := by
      intro h
      exact absurd h.1 (by omega)
    show dlStep a b (fun _ => 0) (dlRow a b 0) 1 (j + 1) = _
    rw [dlStep_succ, if_neg hng, if_neg hng]
    rfl
  | i + 1 =>
    show dlStep a b (dlRow a b i) (dlRow a b (i + 1)) (i + 2) (j + 1) = _
    rw [dlStep_succ]
    rfl

/-- The value of an interior cell is one of its four transition values. -/
lemma dlRow_cases (a b : List ℕ) (i j : ℕ) :
    dlRow a b (i + 1) (j + 1) = dlRow a b i (j + 1) + 1 ∨
    dlRow a b (i + 1) (j + 1) = dlRow a b (i + 1) j + 1 ∨
    dlRow a b (i + 1) (j + 1) = dlRow a b i j + dlCost a b (i + 1) (j + 1) ∨
    (dlTransOk a b (i + 1) (j + 1) ∧
      dlRow a b (i + 1) (j + 1) = dlRow a b (i - 1) (j - 1) + dlCost a b (i + 1) (j + 1)) := by
  have aux4 : ∀ x A B C D : ℕ, x = min (min A (min B C)) D →
      x = A ∨ x = B ∨ x = C ∨ x = D := by
    intro x A B C D h
    omega
  have aux3 : ∀ x A B C : ℕ, x = min A (min B C) → x = A ∨ x = B ∨ x = C := by
    intro x A B C h
    omega
  rw [dlRow_succ_succ]
  split
  · rename_i hg
    rcases aux4 _ _ _ _ _ rfl with h | h | h | h
    · exact Or.inl h
    · exact Or.inr (Or.inl h)
    · exact Or.inr (Or.inr (Or.inl h))
    · exact Or.inr (Or.inr (Or.inr ⟨hg, h⟩))
  · rcases aux3 _ _ _ _ rfl with h | h | h
    · exact Or.inl h
    · exact Or.inr (Or.inl h)
    · exact Or.inr (Or.inr (Or.inl h))

lemma dlRow_le_del (a b : List ℕ) (i j : ℕ) :
    dlRow a b (i + 1) (j + 1) ≤ dlRow a b i (j + 1) + 1 := by
  rw [dlRow_succ_succ]
  split <;> omega

lemma dlRow_le_ins (a b : List ℕ) (i j : ℕ) :
    dlRow a b (i + 1) (j + 1) ≤ dlRow a b (i + 1) j + 1 := by
  rw [dlRow_succ_succ]
  split <;> omega

lemma dlRow_le_sub (a b : List ℕ) (i j : ℕ) :
    dlRow a b (i + 1) (j + 1) ≤ dlRow a b i j + dlCost a b (i + 1) (j + 1) := by
  rw [dlRow_succ_succ]
  split <;> omega

/-- When the transposition at an interior cell is enabled with substitution
cost 0, all four guarded characters are equal, so the diagonal cell one step
up-left also has substitution cost 0. -/
lemma dlTransOk_cost (a b : List ℕ) (i j : ℕ) (hg : dlTransOk a b (i + 1) (j + 1))
    (hc : dlCost a b (i + 1) (j + 1) = 0) : dlCost a b i j = 0 := by
  obtain ⟨hi, hj, h1, h2⟩ := hg
  have hi1 : 1 ≤ i := by omega
  have hj1 : 1 ≤ j := by omega
  have e1 : a.getD i 0 = b.getD (j - 1) 0 := by
    simpa using h1
  have e2 : a.getD (i - 1) 0 = b.getD j 0 := by
    simpa using h2
  have e3 : a.getD i 0 = b.getD j 0 := by
    by_contra hne
    have hone : dlCost a b (i + 1) (j + 1) = 1 := by
      unfold dlCost
      rw [if_pos (by simpa using hne)]
    omega
  have heq : a.getD (i - 1) 0 = b.getD (j - 1) 0 := by
    rw [e2, ← e3, e1]
  unfold dlCost
  rw [if_neg (not_not_intro heq)]

lemma dlRow_lb_aux (a b : List ℕ) :
    ∀ s i j, i + j ≤ s → i ≤ dlRow a b i j + j ∧ j ≤ dlRow a b i j + i := by
  intro s
  induction s with
  | zero =>
    intro i j h
    have hi : i = 0 := by omega
    have hj : j = 0 := by omega
    subst hi
    subst hj
    simp [dlRow_zero_left]
  | succ s ih =>
    intro i j h
    match i, j with
    | 0, j =>
      rw [dlRow_zero_left]
      omega
    | i + 1, 0 =>
      rw [dlRow_col_zero]
      omega
    | i + 1, j + 1 =>
      have hcost := dlCost_le_one a b (i + 1) (j + 1)
      rcases dlRow_cases a b i j with hc | hc | hc | ⟨hg, hc⟩
      · have h1 := ih i (j + 1) (by omega)
        omega
      · have h1 := ih (i + 1) j (by omega)
        omega
      · have h1 := ih i j (by omega)
        omega
      · have hi1 : 1 ≤ i := by
          obtain ⟨h1, -, -⟩ := hg
          omega
        have hj1 : 1 ≤ j := by
          obtain ⟨-, h2, -⟩ := hg
          omega
        have h1 := ih (i - 1) (j - 1) (by omega)
        omega

/-- Every DP cell value is at least the difference of its coordinates. -/
lemma dlRow_lb (a b : List ℕ) (i j : ℕ) :
    i ≤ dlRow a b i j + j ∧ j ≤ dlRow a b i j + i :=
  dlRow_lb_aux a b (i + j) i j (le_refl _)

lemma dlRow_lip_right (a b : List ℕ) (i j : ℕ) : dlRow a b i (j + 1) ≤ dlRow a b i j + 1 := by
  match i with
  | 0 =>
    rw [dlRow_zero_left, dlRow_zero_left]
  | i + 1 =>
    exact dlRow_le_ins a b i j

lemma dlRow_lip_down (a b : List ℕ) (i j : ℕ) : dlRow a b (i + 1) j ≤ dlRow a b i j + 1 := by
  match j with
  | 0 =>
    rw [dlRow_col_zero, dlRow_col_zero]
  | j + 1 =>
    exact dlRow_le_del a b i j

lemma dlRow_lip_diag (a b : List ℕ) (i j : ℕ) :
    dlRow a b (i + 1) (j + 1) ≤ dlRow a b i j + 1 := by
  have h1 := dlRow_le_sub a b i j
  have h2 := dlCost_le_one a b (i + 1) (j + 1)
  omega

lemma dlRow_rev_right (a b : List ℕ) : ∀ i j, dlRow a b i j ≤ dlRow a b i (j + 1) + 1 := by
  intro i
  induction i with
  | zero =>
    intro j
    rw [dlRow_zero_left, dlRow_zero_left]
    omega
  | succ i ih =>
    intro j
    match j with
    | 0 =>
      rw [dlRow_col_zero]
      have h1 := (dlRow_lb a b (i + 1) (0 + 1)).1
      omega
    | j + 1 =>
      have hcost := dlCost_le_one a b (i + 1) (j + 1 + 1)
      rcases dlRow_cases a b i (j + 1) with hc | hc | hc | ⟨hg, hc⟩
      · have h1 := dlRow_lip_down a b i (j + 1)
        have h2 := ih (j + 1)
        omega
      · omega
      · have h1 := dlRow_lip_down a b i (j + 1)
        omega
      · rw [Nat.add_sub_cancel] at hc
        have hi1 : 1 ≤ i := by
          obtain ⟨h1, -, -⟩ := hg
          omega
        rcases Nat.eq_zero_or_pos (dlCost a b (i + 1) (j + 1 + 1)) with hc0 | hcpos
        · have hzz := dlTransOk_cost a b i (j + 1) hg hc0
          have h1 : dlRow a b i (j + 1) ≤ dlRow a b (i - 1) j + dlCost a b i (j + 1) := by
            have h2 := dlRow_le_sub a b (i - 1) j
            rw [show i - 1 + 1 = i by omega] at h2
            exact h2
          have h2 := dlRow_lip_down a b i (j + 1)
          omega
        · have h1 := dlRow_lip_diag a b i j
          have h2 : dlRow a b i j ≤ dlRow a b (i - 1) j + 1 := by
            have h3 := dlRow_lip_down a b (i - 1) j
            rw [show i - 1 + 1 = i by omega] at h3
            exact h3
          omega

lemma dlRow_rev_down (a b : List ℕ) : ∀ j i, dlRow a b i j ≤ dlRow a b (i + 1) j + 1 := by
  intro j
  induction j with
  | zero =>
    intro i
    rw [dlRow_col_zero, dlRow_col_zero]
    omega
  | succ j ih =>
    intro i
    match i with
    | 0 =>
      rw [dlRow_zero_left]
      have h1 := (dlRow_lb a b (0 + 1) (j + 1)).2
      omega
    | i + 1 =>
      have hcost := dlCost_le_one a b (i + 1 + 1) (j + 1)
      rcases dlRow_cases a b (i + 1) j with hc | hc | hc | ⟨hg, hc⟩
      · omega
      · have h1 := dlRow_lip_right a b (i + 1) j
        have h2 := ih (i + 1)
        omega
      · have h1 := dlRow_lip_right a b (i + 1) j
        omega
      · rw [Nat.add_sub_cancel] at hc
        have hj1 : 1 ≤ j := by
          obtain ⟨-, h2, -⟩ := hg
          omega
        rcases Nat.eq_zero_or_pos (dlCost a b (i + 1 + 1) (j + 1)) with hc0 | hcpos
        · have hzz := dlTransOk_cost a b (i + 1) j hg hc0
          have h1 : dlRow a b (i + 1) j ≤ dlRow a b i (j - 1) + dlCost a b (i + 1) j := by
            have h2 := dlRow_le_sub a b i (j - 1)
            rw [show j - 1 + 1 = j by omega] at h2
            exact h2
          have h2 := dlRow_lip_right a b (i + 1) j
          omega
        · have h1 := dlRow_lip_diag a b i j
          have h2 : dlRow a b i j ≤ dlRow a b i (j - 1) + 1 := by
            have h3 := dlRow_lip_right a b i (j - 1)
            rw [show j - 1 + 1 = j by omega] at h3
            exact h3
          omega

/-- Diagonal monotonicity of the full DP (also valid in the presence of the
adjacent-transposition transition). -/
lemma dlRow_diag_mono (a b : List ℕ) (i j : ℕ) :
    dlRow a b i j ≤ dlRow a b (i + 1) (j + 1) := by
  have hcost := dlCost_le_one a b (i + 1) (j + 1)
  rcases dlRow_cases a b i j with hc | hc | hc | ⟨hg, hc⟩
  · have h1 := dlRow_rev_right a b i j
    omega
  · have h1 := dlRow_rev_down a b j i
    omega
  · omega
  · have hi1 : 1 ≤ i := by
      obtain ⟨h1, -, -⟩ := hg
      omega
    have hj1 : 1 ≤ j := by
      obtain ⟨-, h2, -⟩ := hg
      omega
    have h1 : dlRow a b i j ≤ dlRow a b (i - 1) (j - 1) + dlCost a b i j := by
      have h2 := dlRow_le_sub a b (i - 1) (j - 1)
      rw [show i - 1 + 1 = i by omega, show j - 1 + 1 = j by omega] at h2
      exact h2
    rcases Nat.eq_zero_or_pos (dlCost a b (i + 1) (j + 1)) with hc0 | hcpos
    · have hzz := dlTransOk_cost a b i j hg hc0
      omega
    · have h2 := dlCost_le_one a b i j
      omega

/-! ## Kernel lemmas: the banded DP and its agreement with the full DP -/

lemma dlbRow_zero_left (a b : List ℕ) (k n j : ℕ) :
    dlbRow a b k n 0 j = if j ≤ k then j else k + 1 := rfl

lemma dlbRow_col_zero (a b : List ℕ) (k n : ℕ) (i : ℕ) : dlbRow a b k n i 0 = i := by
  match i with
  | 0 => simp [dlbRow]
  | 1 => rfl
  | i + 2 => rfl

lemma dlbStep_succ (a b : List ℕ) (k n : ℕ) (p2 p : ℕ → ℕ) (i j : ℕ) :
    dlbStep a b k n p2 p i (j + 1) =
      if bandLo k i ≤ j + 1 ∧ j + 1 ≤ bandHi n k i then
        if dlTransOk a b i (j + 1) then
          min (min (p (j + 1) + 1)
            (min (dlbStep a b k n p2 p i j + 1) (p j + dlCost a b i (j + 1))))
            (p2 (j - 1) + dlCost a b i (j + 1))
        else
          min (p (j + 1) + 1)
            (min (dlbStep a b k n p2 p i j + 1) (p j + dlCost a b i (j + 1)))
      else k + 1 := by
  show (if bandLo k i ≤ j + 1 ∧ j + 1 ≤ bandHi n k i then _ else k + 1) = _
  split
  · split <;> rfl
  · rfl

/-- Unfolding equation of the banded DP at an interior cell. -/
lemma dlbRow_succ_succ (a b : List ℕ) (k n : ℕ) (i j : ℕ) :
    dlbRow a b k n (i + 1) (j + 1) =
      if bandLo k (i + 1) ≤ j + 1 ∧ j + 1 ≤ bandHi n k (i + 1) then
        if dlTransOk a b (i + 1) (j + 1) then
          min (min (dlbRow a b k n i (j + 1) + 1)
            (min (dlbRow a b k n (i + 1) j + 1)
              (dlbRow a b k n i j + dlCost a b (i + 1) (j + 1))))
            (dlbRow a b k n (i - 1) (j - 1) + dlCost a b (i + 1) (j + 1))
        else
          min (dlbRow a b k n i (j + 1) + 1)
            (min (dlbRow a b k n (i + 1) j + 1)
              (dlbRow a b k n i j + dlCost a b (i + 1) (j + 1)))
      else k + 1 := by
  match i with
  | 0 =>
    have hng : ¬ dlTransOk a b 1 (j + 1) := by
      intro h
      exact absurd h.1 (by omega)
    show dlbStep a b k n (fun _ => 0) (dlbRow a b k n 0) 1 (j + 1) = _
    rw [dlbStep_succ]
    rw [if_neg hng, if_neg hng]
    rfl
  | i + 1 =>
    show dlbStep a b k n (dlbRow a b k n i) (dlbRow a b k n (i + 1)) (i + 2) (j + 1) = _
    rw [dlbStep_succ]
    rfl

/-- Agreement relation between a banded cell and the corresponding full-DP
cell: they are equal, or both exceed the bound `k`. -/
def Pk (k x y : ℕ) : Prop :=
  x = y ∨ (k < x ∧ k < y)

/-- Every banded cell agrees with the full DP cell in the sense of `Pk`
(for every column up to `n`). -/
lemma dlbRow_inv (a b : List ℕ) (k n : ℕ) :
    ∀ i, ∀ j ≤ n, Pk k (dlbRow a b k n i j) (dlRow a b i j) := by
  intro i
  induction i using Nat.strong_induction_on with
  | _ i ihi =>
    cases i with
    | zero =>
      intro j hj
      rw [dlRow_zero_left, dlbRow_zero_left]
      unfold Pk
      split <;> omega
    | succ i =>
      intro j
      induction j with
      | zero =>
        intro hj
        rw [dlbRow_col_zero, dlRow_col_zero]
        unfold Pk
        omega
      | succ j ihj =>
        intro hj
        rw [dlbRow_succ_succ]
        by_cases hband : bandLo k (i + 1) ≤ j + 1 ∧ j + 1 ≤ bandHi n k (i + 1)
        · rw [if_pos hband, dlRow_succ_succ]
          have hdel := ihi i (by omega) (j + 1) hj
          have hins := ihj (by omega)
          have hsub := ihi i (by omega) j (by omega)
          by_cases hg : dlTransOk a b (i + 1) (j + 1)
          · rw [if_pos hg, if_pos hg]
            have hi2 : 1 ≤ i := by
              obtain ⟨h1, -, -⟩ := hg
              omega
            have htr := ihi (i - 1) (by omega) (j - 1) (by omega)
            unfold Pk at hdel hins hsub htr ⊢
            omega
          · rw [if_neg hg, if_neg hg]
            unfold Pk at hdel hins hsub ⊢
            omega
        · rw [if_neg hband]
          have hlb := dlRow_lb a b (i + 1) (j + 1)
          have hlo : (k < i + 1 ∧ bandLo k (i + 1) = i + 1 - k) ∨
              (¬ k < i + 1 ∧ bandLo k (i + 1) = 1) := by
            unfold bandLo
            split
            · exact Or.inl ⟨by assumption, rfl⟩
            · exact Or.inr ⟨by assumption, rfl⟩
          have hhi : bandHi n k (i + 1) = min n (i + 1 + k) := rfl
          unfold Pk
          omega

lemma foldl_min_le_init : ∀ (l : List ℕ) (x : ℕ), l.foldl min x ≤ x := by
  intro l
  induction l with
  | nil =>
    intro x
    exact le_refl x
  | cons y l ih =>
    intro x
    rw [List.foldl_cons]
    have h1 := ih (min x y)
    omega

lemma foldl_min_le_mem : ∀ (l : List ℕ) (x v : ℕ), v ∈ l → l.foldl min x ≤ v := by
  intro l
  induction l with
  | nil =>
    intro x v hv
    cases hv
  | cons y l ih =>
    intro x v hv
    rw [List.foldl_cons]
    rcases List.mem_cons.mp hv with h | h
    · subst h
      have h1 := foldl_min_le_init l (min x v)
      omega
    · exact ih (min x y) v h

/-- The in-band row minimum is a lower bound for every in-band cell. -/
lemma dlbRowMin_le (a b : List ℕ) (k n i : ℕ) {j : ℕ}
    (h1 : bandLo k i ≤ j) (h2 : j ≤ bandHi n k i) :
    dlbRowMin a b k n i ≤ dlbRow a b k n i j := by
  unfold dlbRowMin
  apply foldl_min_le_mem
  apply List.mem_map_of_mem
  rw [List.mem_range'_1]
  omega

/-- An in-band interior banded cell is bounded by its diagonal predecessor
plus the substitution cost. -/
lemma dlbRow_le_sub (a b : List ℕ) (k n i j : ℕ)
    (hband : bandLo k (i + 1) ≤ j + 1 ∧ j + 1 ≤ bandHi n k (i + 1)) :
    dlbRow a b k n (i + 1) (j + 1) ≤ dlbRow a b k n i j + dlCost a b (i + 1) (j + 1) := by
  rw [dlbRow_succ_succ, if_pos hband]
  split <;> omega

/-- If every cell of a full-DP row exceeds `k`, so does every cell of all
later rows (columns up to `n`); this uses diagonal monotonicity. -/
lemma dlRow_all_gt (a b : List ℕ) (k n i : ℕ) (h : ∀ j ≤ n, k < dlRow a b i j) :
    ∀ i2, i ≤ i2 → ∀ j ≤ n, k < dlRow a b i2 j := by
  intro i2
  induction i2 with
  | zero =>
    intro h0 j hj
    have hi0 : i = 0 := by omega
    subst hi0
    exact h j hj
  | succ i2 ih =>
    intro hle j hj
    by_cases hcase : i ≤ i2
    · have hprev := ih hcase
      match j with
      | 0 =>
        rw [dlRow_col_zero]
        have h1 := hprev 0 (by omega)
        rw [dlRow_col_zero] at h1
        omega
      | j + 1 =>
        have h1 := dlRow_diag_mono a b i2 j
        have h2 := hprev j (by omega)
        omega
    · have hi2 : i = i2 + 1 := by omega
      subst hi2
      exact h j hj

/-- If the banded row minimum of row `i` exceeds `k`, then every full-DP cell
of row `i` (columns up to `n`) exceeds `k`. -/
lemma dlbAbort_all_gt (a b : List ℕ) (k n i : ℕ) (hi : 1 ≤ i) (hn : 1 ≤ n)
    (habort : k < dlbRowMin a b k n i) : ∀ j ≤ n, k < dlRow a b i j := by
  have hik : k < i := by
    by_contra hik
    obtain ⟨i2, rfl⟩ : ∃ i2, i = i2 + 1 := ⟨i - 1, by omega⟩
    have h1 : bandLo k (i2 + 1) = 1 := by
      unfold bandLo
      rw [if_neg hik]
    have h2 : bandHi n k (i2 + 1) = min n (i2 + 1 + k) := rfl
    have hb1 : bandLo k (i2 + 1) ≤ 0 + 1 := by omega
    have hb2 : 0 + 1 ≤ bandHi n k (i2 + 1) := by omega
    have hle := dlbRow_le_sub a b k n i2 0 ⟨hb1, hb2⟩
    have hcol := dlbRow_col_zero a b k n i2
    have hc1 := dlCost_le_one a b (i2 + 1) (0 + 1)
    have hminle := @dlbRowMin_le a b k n (i2 + 1) (0 + 1) hb1 hb2
    omega
  intro j hj
  match j with
  | 0 =>
    rw [dlRow_col_zero]
    exact hik
  | j + 1 =>
    by_cases hband : bandLo k i ≤ j + 1 ∧ j + 1 ≤ bandHi n k i
    · have hmin := @dlbRowMin_le a b k n i (j + 1) hband.1 hband.2
      have hp := dlbRow_inv a b k n i (j + 1) hj
      unfold Pk at hp
      omega
    · have hlb := dlRow_lb a b i (j + 1)
      have hlo : bandLo k i = i - k := by
        unfold bandLo
        rw [if_pos hik]
      have hhi : bandHi n k i = min n (i + k) := rfl
      omega

/-- The banded row loop computes exactly the `k`-capped full DP value. -/
lemma dlbLoop_eq (a b : List ℕ) (k n : ℕ) (hn : 1 ≤ n) :
    ∀ r i, 1 ≤ i →
      dlbLoop a b k n i r =
        if dlRow a b (i + r - 1) n ≤ k then dlRow a b (i + r - 1) n else k + 1 := by
  intro r
  induction r with
  | zero =>
    intro i hi
    show (if k < dlbRow a b k n (i - 1) n then k + 1 else dlbRow a b k n (i - 1) n) = _
    rw [show i + 0 - 1 = i - 1 from by omega]
    have hp := dlbRow_inv a b k n (i - 1) n (le_refl n)
    unfold Pk at hp
    split <;> split <;> omega
  | succ r ih =>
    intro i hi
    show (if k < dlbRowMin a b k n i then k + 1 else dlbLoop a b k n (i + 1) r) = _
    by_cases habort : k < dlbRowMin a b k n i
    · rw [if_pos habort]
      have hall := dlbAbort_all_gt a b k n i hi hn habort
      have hfin := dlRow_all_gt a b k n i hall (i + (r + 1) - 1) (by omega) n (le_refl n)
      rw [if_neg (by omega)]
    · rw [if_neg habort, ih (i + 1) (by omega)]
      rw [show i + 1 + r - 1 = i + (r + 1) - 1 from by omega]

/-- The banded kernel returns exactly the full Damerau–Levenshtein distance
capped at `k`: the true distance when it is at most `k`, and `k + 1`
otherwise. -/
lemma dlbFull_eq (a b : List ℕ) (k : ℕ) :
    dlbFull a b k = if dlFull a b ≤ k then dlFull a b else k + 1 := by
  unfold dlbFull dlFull
  by_cases hm : a.length = 0
  · simp only [if_pos hm]
  · simp only [if_neg hm]
    by_cases hn : b.length = 0
    · simp only [if_pos hn]
    · simp only [if_neg hn]
      by_cases hguard : b.length + k < a.length ∨ a.length + k < b.length
      · rw [if_pos hguard]
        have hlb := dlRow_lb a b a.length b.length
        rw [if_neg (by omega)]
      · rw [if_neg hguard]
        rw [dlbLoop_eq a b k b.length (by omega) a.length 1 (by omega)]
        rw [show 1 + a.length - 1 = a.length from by omega]

/-- On pure-ASCII strings the UTF-8 byte sequence coincides with the
code-point sequence. -/
lemma utf8Bytes_of_ascii (s : GoStr) (h : goIsASCII s = true) : utf8Bytes s = s := by
  induction s with
  | nil => rfl
  | cons c t ih =>
    have hc : c < 128 ∧ goIsASCII t = true := by
      simpa [goIsASCII] using h
    have he : utf8EncodeChar c = [c] := by
      unfold utf8EncodeChar
      rw [if_pos (by omega)]
    show (List.map utf8EncodeChar (c :: t)).flatten = c :: t
    rw [List.map_cons, List.flatten_cons, he]
    show [c] ++ utf8Bytes t = c :: t
    rw [ih hc.2]
    rfl

/-- Sanity check: adjacent transposition costs 1 (spec example
`distance("ab", "ba") == 1`). -/
example : dlFull [97, 98] [98, 97] = 1 := by decide

/-- Sanity check: the banded kernel with a tight bound returns the bound
plus one on distant strings. -/
example : dlbFull [97, 97, 97, 97, 97] [98, 99, 98, 99, 98] 2 = 3 := by decide

/-- Sanity check of the banded kernel against the band and length guards. -/
example : dlbFull [97, 98, 99, 100] [97, 98] 2 = 2 := by decide

/-- C1: for all strings `a` and `b` and every `k ≥ 0`, `DistanceMax(a, b, k)`
with Type `DamerauLevenshtein` returns the exact Damerau–Levenshtein distance
`Distance(a, b)` whenever that distance is at most `k`, and returns `k + 1`
otherwise. -/
theorem claimC1_distanceMax_exact (a b : GoStr) (k : ℕ) :
    goDistanceMax DamerauLevenshtein a b k =
      if goDistance DamerauLevenshtein a b ≤ k then goDistance DamerauLevenshtein a b
      else k + 1 := by
  unfold goDistance goDistanceMax
  rw [if_pos rfl, if_pos rfl]
  by_cases h : goIsASCII a = true ∧ goIsASCII b = true
  · rw [if_pos h, if_pos h]
    exact dlbFull_eq (utf8Bytes a) (utf8Bytes b) k
  · rw [if_neg h, if_neg h]
    exact dlbFull_eq a b k

/-- C7: for ASCII-only strings the byte-based kernel and the code-point
kernel produce the same number, for the exact distance and for the bounded
variant at every `k`. -/
theorem claimC7_ascii_byte_rune_agree (a b : GoStr) (k : ℕ)
    (ha : goIsASCII a = true) (hb : goIsASCII b = true) :
    damerauLevenshteinDistance (utf8Bytes a) (utf8Bytes b) =
        damerauLevenshteinDistanceRunes a b ∧
    damerauLevenshteinDistanceMax (utf8Bytes a) (utf8Bytes b) k =
        damerauLevenshteinDistanceMaxRunes a b k := by
  rw [utf8Bytes_of_ascii a ha, utf8Bytes_of_ascii b hb]
  exact ⟨rfl, rfl⟩

/-- Witness for C7 at the concrete ASCII inputs `"ab"`, `"ba"`, `k = 2`. -/
theorem claimC7_witness :
    goIsASCII [97, 98] = true ∧ goIsASCII [98, 97] = true ∧
    (damerauLevenshteinDistance (utf8Bytes [97, 98]) (utf8Bytes [98, 97]) =
        damerauLevenshteinDistanceRunes [97, 98] [98, 97] ∧
      damerauLevenshteinDistanceMax (utf8Bytes [97, 98]) (utf8Bytes [98, 97]) 2 =
        damerauLevenshteinDistanceMaxRunes [97, 98] [98, 97] 2) :=
  ⟨by decide, by decide,
    claimC7_ascii_byte_rune_agree [97, 98] [98, 97] 2 (by decide) (by decide)⟩

/-! ## Dictionary store (`src/cmd/main.go`, package `internal`) -/

/-- Go constant `maxUint32 = ^uint32(0)`. -/
def maxUint32 : ℕ := 4294967295

/-- Go `incrementCount(count, countPrevious uint32)`: saturating addition at
`maxUint32`; for `uint32` arguments `maxUint32 - countPrevious` never
underflows, so natural subtraction models the unsigned subtraction exactly. -/
def incrementCount (count countPrevious : ℕ) : ℕ :=
  if count < maxUint32 - countPrevious then countPrevious + count else maxUint32

/-- C9: `incrementCount(count, countPrevious)` equals
`min(countPrevious + count, 2^32 - 1)` in exact integer arithmetic; in
particular it never wraps around and is always at least `countPrevious`. -/
theorem claimC9_incrementCount (count countPrevious : ℕ)
    (hc : count < 2 ^ 32) (hp : countPrevious < 2 ^ 32) :
    incrementCount count countPrevious = min (countPrevious + count) (2 ^ 32 - 1) ∧
    countPrevious ≤ incrementCount count countPrevious := by
  have h32 : (2 : ℕ) ^ 32 = 4294967296 := by norm_num
  unfold incrementCount maxUint32
  split <;> constructor <;> omega

/-- Witness for C9 at a near-saturating concrete input. -/
theorem claimC9_witness :
    (5 : ℕ) < 2 ^ 32 ∧ (4294967294 : ℕ) < 2 ^ 32 ∧
    (incrementCount 5 4294967294 = min (4294967294 + 5) (2 ^ 32 - 1) ∧
      4294967294 ≤ incrementCount 5 4294967294) :=
  ⟨by norm_num, by norm_num,
    claimC9_incrementCount 5 4294967294 (by norm_num) (by norm_num)⟩

/-- Insert into a Go map used as a set (presence only); membership order is
fixed to insertion order. -/
def setInsert (x : GoStr) (l : List GoStr) : List GoStr :=
  if x ∈ l then l else l ++ [x]

lemma mem_setInsert {x y : GoStr} {l : List GoStr} :
    x ∈ setInsert y l ↔ x = y ∨ x ∈ l := by
  unfold setInsert
  split
  · rename_i hy
    constructor
    · exact fun h => Or.inr h
    · rintro (rfl | h)
      · exact hy
      · exact h
  · rw [List.mem_append, List.mem_singleton]
    tauto

/-- Go method `edits(word, editDistance, deleteWords, currentDistance)` of the
dictionary builder, with an explicit fuel bounding the recursion depth (the
depth is at most the word length, and callers supply at least that much fuel;
the empty-word branch is Go's `len(runes) == 0` case, whose rune-count check
`0 ≤ MaxDictionaryEditDistance` always holds).  The fold is the
`for i := currentDistance; i < len(runes); i++` loop. -/
def editsGo (maxD : ℕ) : ℕ → GoStr → ℕ → ℕ → List GoStr → List GoStr
  | 0, _, _, _, acc => acc
  | fuel + 1, w, e, cur, acc =>
    if w.length = 0 then setInsert [] acc
    else
      (List.range' cur (w.length - cur)).foldl
        (fun acc2 i =>
          let dw := w.take i ++ w.drop (i + 1)
          let acc3 := setInsert dw acc2
          if e + 1 < maxD then editsGo maxD fuel dw (e + 1) i acc3 else acc3)
        acc

/-- The loop of `edits` over an explicit list of deletion positions; used to
reason about `editsGo` by induction on the position list. -/
def editsLoop (maxD fuel : ℕ) (w : GoStr) (e : ℕ) : List ℕ → List GoStr → List GoStr
  | [], acc => acc
  | i :: rest, acc =>
    editsLoop maxD fuel w e rest
      (if e + 1 < maxD then
        editsGo maxD fuel (w.take i ++ w.drop (i + 1)) (e + 1) i
          (setInsert (w.take i ++ w.drop (i + 1)) acc)
      else setInsert (w.take i ++ w.drop (i + 1)) acc)

lemma editsGo_foldl_eq_loop (maxD fuel : ℕ) (w : GoStr) (e : ℕ) :
    ∀ (l : List ℕ) (acc : List GoStr),
      l.foldl
        (fun acc2 i =>
          let dw := w.take i ++ w.drop (i + 1)
          let acc3 := setInsert dw acc2
          if e + 1 < maxD then editsGo maxD fuel dw (e + 1) i acc3 else acc3)
        acc =
      editsLoop maxD fuel w e l acc := by
  intro l
  induction l with
  | nil =>
    intro acc
    rfl
  | cons i rest ih =>
    intro acc
    rw [List.foldl_cons]
    show _ = editsLoop maxD fuel w e rest _
    exact ih _

/-- One-step unfolding of `editsGo` in terms of `editsLoop`. -/
lemma editsGo_succ (maxD fuel : ℕ) (w : GoStr) (e cur : ℕ) (acc : List GoStr) :
    editsGo maxD (fuel + 1) w e cur acc =
      if w.length = 0 then setInsert [] acc
      else editsLoop maxD fuel w e (List.range' cur (w.length - cur)) acc := by
  show (if w.length = 0 then setInsert [] acc else _) = _
  split
  · rfl
  · exact editsGo_foldl_eq_loop maxD fuel w e _ acc

/-- Go method `editsPrefix(key)`: the set of delete-variants of the
`PrefixLength`-truncated key, with the empty string pre-inserted when the full
key has at most `MaxDictionaryEditDistance` code points. -/
def editsPrefixSet (maxD prefLen : ℕ) (key : GoStr) : List GoStr :=
  editsGo maxD ((if prefLen < key.length then key.take prefLen else key).length + 1)
    (if prefLen < key.length then key.take prefLen else key) 0 0
    (setInsert (if prefLen < key.length then key.take prefLen else key)
      (if key.length ≤ maxD then setInsert [] [] else []))

lemma editsLoop_mono_of (maxD fuel : ℕ)
    (hGo : ∀ w e cur acc x, x ∈ acc → x ∈ editsGo maxD fuel w e cur acc) :
    ∀ (w : GoStr) (e : ℕ) (l : List ℕ) (acc : List GoStr) (x : GoStr),
      x ∈ acc → x ∈ editsLoop maxD fuel w e l acc := by
  intro w e l
  induction l with
  | nil =>
    intro acc x hx
    exact hx
  | cons i rest ih =>
    intro acc x hx
    show x ∈ editsLoop maxD fuel w e rest _
    apply ih
    show x ∈ (if e + 1 < maxD then
        editsGo maxD fuel (w.take i ++ w.drop (i + 1)) (e + 1) i
          (setInsert (w.take i ++ w.drop (i + 1)) acc)
      else setInsert (w.take i ++ w.drop (i + 1)) acc)
    split
    · exact hGo _ _ _ _ x (mem_setInsert.mpr (Or.inr hx))
    · exact mem_setInsert.mpr (Or.inr hx)

/-- `edits` never removes elements from the accumulated set. -/
lemma editsGo_mono (maxD : ℕ) :
    ∀ fuel (w : GoStr) (e cur : ℕ) (acc : List GoStr) (x : GoStr),
      x ∈ acc → x ∈ editsGo maxD fuel w e cur acc := by
  intro fuel
  induction fuel with
  | zero =>
    intro w e cur acc x hx
    exact hx
  | succ fuel ih =>
    intro w e cur acc x hx
    rw [editsGo_succ]
    split
    · exact mem_setInsert.mpr (Or.inr hx)
    · exact editsLoop_mono_of maxD fuel ih w e _ acc x hx

lemma editsLoop_length_of (maxD fuel : ℕ)
    (hGo : ∀ (w : GoStr) (e cur : ℕ) (acc : List GoStr), e < maxD →
      ∀ x ∈ editsGo maxD fuel w e cur acc, x ∈ acc ∨ w.length ≤ x.length + (maxD - e)) :
    ∀ (w : GoStr) (e : ℕ) (l : List ℕ) (acc : List GoStr), e < maxD →
      (∀ i ∈ l, i < w.length) →
      ∀ x ∈ editsLoop maxD fuel w e l acc, x ∈ acc ∨ w.length ≤ x.length + (maxD - e) := by
  intro w e l
  induction l with
  | nil =>
    intro acc he hb x hx
    exact Or.inl hx
  | cons i rest ih =>
    intro acc he hb x hx
    have hi : i < w.length := hb i (List.mem_cons_self i rest)
    have hdw : (w.take i ++ w.drop (i + 1)).length = w.length - 1 := by
      rw [List.length_append, List.length_take, List.length_drop]
      omega
    have hx2 : x ∈ editsLoop maxD fuel w e rest
        (if e + 1 < maxD then
          editsGo maxD fuel (w.take i ++ w.drop (i + 1)) (e + 1) i
            (setInsert (w.take i ++ w.drop (i + 1)) acc)
        else setInsert (w.take i ++ w.drop (i + 1)) acc) := hx
    rcases ih _ he (fun i2 h2 => hb i2 (List.mem_cons_of_mem i h2)) x hx2 with h | h
    · have hacc3 : x ∈ setInsert (w.take i ++ w.drop (i + 1)) acc ∨
          w.length ≤ x.length + (maxD - e) := by
        by_cases hrec : e + 1 < maxD
        · rw [if_pos hrec] at h
          rcases hGo _ _ _ _ hrec x h with h2 | h2
          · exact Or.inl h2
          · right
            omega
        · rw [if_neg hrec] at h
          exact Or.inl h
      rcases hacc3 with h2 | h2
      · rcases mem_setInsert.mp h2 with h3 | h3
        · right
          rw [h3, hdw]
          omega
        · exact Or.inl h3
      · exact Or.inr h2
    · exact Or.inr h

/-- Every string `edits` adds to the set is at most `maxD - e` deletions
shorter than the word being processed. -/
lemma editsGo_length (maxD : ℕ) :
    ∀ fuel (w : GoStr) (e cur : ℕ) (acc : List GoStr), e < maxD →
      ∀ x ∈ editsGo maxD fuel w e cur acc, x ∈ acc ∨ w.length ≤ x.length + (maxD - e) := by
  intro fuel
  induction fuel with
  | zero =>
    intro w e cur acc he x hx
    exact Or.inl hx
  | succ fuel ih =>
    intro w e cur acc he x hx
    rw [editsGo_succ] at hx
    by_cases hw : w.length = 0
    · rw [if_pos hw] at hx
      rcases mem_setInsert.mp hx with h | h
      · right
        rw [h]
        simp only [List.length_nil]
        omega
      · exact Or.inl h
    · rw [if_neg hw] at hx
      apply editsLoop_length_of maxD fuel ih w e _ acc he _ x hx
      intro i hi
      rw [List.mem_range'_1] at hi
      omega

/-- Counterexample to C6 as stated: with `MaxDictionaryEditDistance = 0` and
`PrefixLength = 7` (a valid configuration), the delete-variant set of the
one-character key `"a"` contains the empty string even though the key's
code-point length 1 is not `≤ 0`. -/
theorem claimC6_counterexample :
    ([] : GoStr) ∈ editsPrefixSet 0 7 [97] ∧ ¬ (([97] : GoStr).length ≤ 0) := by
  constructor
  · decide
  · decide

/-- C6 (amended): under the configuration invariant
`PrefixLength > MaxDictionaryEditDistance ≥ 1` the delete-variant set of every
key contains the truncated key itself, and contains the empty string exactly
when the key's code-point length is at most `MaxDictionaryEditDistance`. -/
theorem claimC6_editsPrefix (maxD prefLen : ℕ) (key : GoStr)
    (hmd : 1 ≤ maxD) (hmp : maxD < prefLen) :
    (if prefLen < key.length then key.take prefLen else key) ∈
        editsPrefixSet maxD prefLen key ∧
    (([] : GoStr) ∈ editsPrefixSet maxD prefLen key ↔ key.length ≤ maxD) := by
  constructor
  · apply editsGo_mono
    exact mem_setInsert.mpr (Or.inl rfl)
  · constructor
    · intro hmem
      rcases editsGo_length maxD _ _ _ _ _ (by omega) [] hmem with h | h
      · rcases mem_setInsert.mp h with h2 | h2
        · by_cases htr : prefLen < key.length
          · rw [if_pos htr] at h2
            have hlen : (key.take prefLen).length = prefLen := by
              rw [List.length_take]
              omega
            rw [← h2] at hlen
            simp at hlen
            omega
          · rw [if_neg htr] at h2
            rw [← h2]
            simp
        · by_cases hkey : key.length ≤ maxD
          · exact hkey
          · rw [if_neg hkey] at h2
            cases h2
      · simp only [List.length_nil] at h
        by_cases htr : prefLen < key.length
        · rw [if_pos htr, List.length_take] at h
          omega
        · rw [if_neg htr] at h
          omega
    · intro hkey
      apply editsGo_mono
      apply mem_setInsert.mpr
      right
      rw [if_pos hkey]
      exact mem_setInsert.mpr (Or.inl rfl)

/-- Witness for the amended C6 at `maxD = 2`, `prefLen = 7`, key `"ab"`. -/
theorem claimC6_witness :
    (1 : ℕ) ≤ 2 ∧ (2 : ℕ) < 7 ∧
    ((if 7 < ([97, 98] : GoStr).length then ([97, 98] : GoStr).take 7 else [97, 98]) ∈
        editsPrefixSet 2 7 [97, 98] ∧
      (([] : GoStr) ∈ editsPrefixSet 2 7 [97, 98] ↔ ([97, 98] : GoStr).length ≤ 2)) :=
  ⟨by decide, by decide, claimC6_editsPrefix 2 7 [97, 98] (by decide) (by decide)⟩

/-! ## The term store and its mutators (`src/cmd/main.go`, package `internal`) -/

/-- Lookup in a Go map modelled as an association list. -/
def lookupA {α : Type} (l : List (GoStr × α)) (key : GoStr) : Option α :=
  match l.find? (fun p => p.1 == key) with
  | some p => some p.2
  | none => none

/-- Go map assignment `m[key] = v` (replace if present, else append). -/
def insertA {α : Type} (l : List (GoStr × α)) (key : GoStr) (v : α) : List (GoStr × α) :=
  if (l.find? (fun p => p.1 == key)).isSome then
    l.map (fun p => if p.1 == key then (key, v) else p)
  else l ++ [(key, v)]

/-- Go map `delete(m, key)`. -/
def eraseA {α : Type} (l : List (GoStr × α)) (key : GoStr) : List (GoStr × α) :=
  l.filter (fun p => !(p.1 == key))

/-- The `SymSpell` store state: configuration plus the term store, the
below-threshold pool and the packed delete-index.  `DeletesIdx` maps a
delete-variant to its `(offset, length)` pair (Go packs the pair into a
`uint64` as `offset<<32 | length`; the pair model is lossless for the 32-bit
values involved). -/
structure SymSpellStore where
  MaxDictionaryEditDistance : ℕ
  PrefixLength : ℕ
  CountThreshold : ℕ
  FrequencyThreshold : ℤ
  FrequencyMultiplier : ℤ
  Words : List (GoStr × ℕ)
  BelowThresholdWords : List (GoStr × ℕ)
  DeletesIdx : List (GoStr × (ℕ × ℕ))
  DeletesData : List ℕ
  words : List GoStr
  counts : List ℕ
  maxLength : ℤ

/-- The common tail of `addWordEntry` after the threshold branches: park the
word below threshold, or append it to the main store. -/
def addWordFinish (s : SymSpellStore) (key : GoStr) (count : ℕ) : Bool × SymSpellStore :=
  if count < s.CountThreshold then
    (false, { s with BelowThresholdWords := insertA s.BelowThresholdWords key count })
  else
    (true, { s with
      words := s.words ++ [key],
      counts := s.counts ++ [count],
      Words := insertA s.Words key s.words.length,
      maxLength := max s.maxLength (goByteLen key : ℤ) })

/-- Go method `addWordEntry(key, count)`: returns whether a new main-store
entry was created, together with the updated store.  Note that the main-store
membership check happens only in the `CountThreshold ≤ 1` branch, exactly as
in the source. -/
def addWordEntry (s : SymSpellStore) (key : GoStr) (count : ℕ) : Bool × SymSpellStore :=
  if count = 0 ∧ 0 < s.CountThreshold then (false, s)
  else if 1 < s.CountThreshold then
    match lookupA s.BelowThresholdWords key with
    | some countPrev =>
      let c2 := incrementCount count countPrev
      if c2 < s.CountThreshold then
        (false, { s with BelowThresholdWords := insertA s.BelowThresholdWords key c2 })
      else
        addWordFinish { s with BelowThresholdWords := eraseA s.BelowThresholdWords key } key c2
    | none => addWordFinish s key count
  else
    match lookupA s.Words key with
    | some idx =>
      (false, { s with counts := s.counts.set idx (incrementCount count (s.counts.getD idx 0)) })
    | none => addWordFinish s key count

/-- One posting insertion of `addDeletesForIndex`: extend the packed run of
`deleteWord` by `index` (shifting later offsets), or start a fresh run at the
end of the data array. -/
def insertPosting (dIdx : List (GoStr × (ℕ × ℕ))) (dData : List ℕ)
    (deleteWord : GoStr) (index : ℕ) : List (GoStr × (ℕ × ℕ)) × List ℕ :=
  match lookupA dIdx deleteWord with
  | some ol =>
    let insertPos := ol.1 + ol.2
    let dData2 := dData.take insertPos ++ [index] ++ dData.drop insertPos
    let dIdx2 := dIdx.map (fun p =>
      if p.1 == deleteWord then p
      else if insertPos ≤ p.2.1 then (p.1, (p.2.1 + 1, p.2.2)) else p)
    (insertA dIdx2 deleteWord (ol.1, ol.2 + 1), dData2)
  | none =>
    (insertA dIdx deleteWord (dData.length, 1), dData ++ [index])

/-- Go method `addDeletesForIndex(key, index)`: insert `index` into the
posting run of every delete-variant of `key` (map iteration order fixed to
the variant list order of `editsPrefixSet`). -/
def addDeletesForIndex (s : SymSpellStore) (key : GoStr) (index : ℕ) : SymSpellStore :=
  (editsPrefixSet s.MaxDictionaryEditDistance s.PrefixLength key).foldl
    (fun st dw =>
      let r := insertPosting st.DeletesIdx st.DeletesData dw index
      { st with DeletesIdx := r.1, DeletesData := r.2 })
    s

/-- Go method `createDictionaryEntry(key, count)`: add the word entry and, if
a new main-store entry was created, index its delete-variants. -/
def createDictionaryEntry (s : SymSpellStore) (key : GoStr) (count : ℕ) :
    Bool × SymSpellStore :=
  let r := addWordEntry s key count
  if r.1 then (true, addDeletesForIndex r.2 key (r.2.words.length - 1))
  else (false, r.2)

/-- A freshly constructed store with the given configuration (Go
`NewSymSpell` after validation). -/
def newStore (maxD prefLen ct : ℕ) (ft fm : ℤ) : SymSpellStore :=
  { MaxDictionaryEditDistance := maxD
    PrefixLength := prefLen
    CountThreshold := ct
    FrequencyThreshold := ft
    FrequencyMultiplier := fm
    Words := []
    BelowThresholdWords := []
    DeletesIdx := []
    DeletesData := []
    words := []
    counts := []
    maxLength := 0 }

/-- C5 is a code bug: with `CountThreshold = 2` (a configuration the claim
explicitly includes), adding the term `"a"` with count 2 twice creates two
main-store entries for the same term instead of summing the counts, because
`addWordEntry` consults the main `Words` map only in the
`CountThreshold ≤ 1` branch.  After the two calls, `words = ["a", "a"]` and
`Words["a"] = 1`, so `Words[words[0]] = 1 ≠ 0`, violating the claimed
invariant. -/
theorem claimC5_duplicate_entry :
    (createDictionaryEntry
        ((createDictionaryEntry (newStore 2 7 2 1000 10) [97] 2).2) [97] 2).2.words =
      [[97], [97]] ∧
    lookupA (createDictionaryEntry
        ((createDictionaryEntry (newStore 2 7 2 1000 10) [97] 2).2) [97] 2).2.Words [97] =
      some 1 := by
  constructor
  · decide
  · decide

/-! ## The lookup engine (`src/internal/lookup.go`) -/

/-- Modelled from the spec: result record `{ term, distance, count }`
(package `symspell/pkg/items`, not under `src/`). -/
structure SuggestItem where
  Term : GoStr
  Distance : ℤ
  Count : ℤ
deriving DecidableEq

/-- Modelled from the spec: the lookup verbosity enumeration
(package `symspell/pkg/verbosity`, not under `src/`). -/
inductive Verbosity where
  | Top
  | Closest
  | All
deriving DecidableEq

/-- The comparison used by `sortCandidate` (`sort.Slice` with
`distance asc, count desc`): `x` may precede `y`. -/
def suggOrder (x y : SuggestItem) : Prop :=
  x.Distance < y.Distance ∨ (x.Distance = y.Distance ∧ y.Count ≤ x.Count)

instance : DecidableRel suggOrder := fun x y => by
  unfold suggOrder
  infer_instance

instance : IsTotal SuggestItem suggOrder :=
  ⟨by
    intro a b
    unfold suggOrder
    omega⟩

instance : IsTrans SuggestItem suggOrder :=
  ⟨by
    intro a b c
    unfold suggOrder
    omega⟩

/-- Go `sort.Slice` of the suggestions: returns a permutation that is
pairwise ordered by `suggOrder` (Go's sort is unstable, so the order among
ties is unspecified; insertion sort realises one conformant outcome). -/
def sortSuggestions (l : List SuggestItem) : List SuggestItem :=
  List.insertionSort suggOrder l

/-- Go length of a string as the candidate processor measures it: code
points when the phrase is non-ASCII (`cp.unicode`), bytes otherwise. -/
def strLen (unicode : Bool) (s : GoStr) : ℤ :=
  if unicode then (s.length : ℤ) else (goByteLen s : ℤ)

/-- Go helper `abs` from `lookup.go`. -/
def goAbs (a : ℤ) : ℤ :=
  if a < 0 then -a else a

/-- The candidate-processor state (`candidateProcessor` struct).  In the
code-point string model the `phraseRunes` / `candidateRunes` /
`suggestionRunes` fields coincide with the strings themselves and are not
duplicated. -/
structure CandState where
  candidates : List GoStr
  consideredDeletes : List GoStr
  consideredSuggestions : List GoStr
  maxEditDistance2 : ℤ
  candidatePointer : ℕ
  verbosity : Verbosity
  phraseLen : ℤ
  phrase : GoStr
  unicode : Bool
  candidateLen : ℤ
  distance : ℤ
  minDistance : ℤ
  suggestions : List SuggestItem
  suggestionLen : ℤ
  lenDiff : ℤ

/-- Go `acquireCandidateProcessor` (after the reset of the pooled state). -/
def acquireCandidateProcessor (maxEditDistance : ℤ) (v : Verbosity) (phrase : GoStr) :
    CandState :=
  { candidates := []
    consideredDeletes := []
    consideredSuggestions := []
    maxEditDistance2 := maxEditDistance
    candidatePointer := 0
    verbosity := v
    phraseLen := strLen (!(goIsASCII phrase)) phrase
    phrase := phrase
    unicode := !(goIsASCII phrase)
    candidateLen := 0
    distance := 0
    minDistance := 0
    suggestions := []
    suggestionLen := 0
    lenDiff := 0 }

/-- Go `checkExactMatch`: looks the phrase up in the term store, appends it as
a distance-0 suggestion when present, and decides whether to stop
(`verbosity != All` and count at least `FrequencyThreshold`).  Returns
`(shouldStop, exactItem, new state)`. -/
def checkExactMatchFn (s : SymSpellStore) (phrase : GoStr) (v : Verbosity) (cp : CandState) :
    Bool × Option SuggestItem × CandState :=
  match lookupA s.Words phrase with
  | some idx =>
    let count := s.counts.getD idx 0
    let exactItem : SuggestItem := ⟨phrase, 0, (count : ℤ)⟩
    let cp2 := { cp with suggestions := cp.suggestions ++ [exactItem] }
    if v ≠ Verbosity.All ∧ (count : ℤ) ≥ s.FrequencyThreshold then (true, some exactItem, cp2)
    else (false, some exactItem, cp2)
  | none => (false, none, cp)

/-- Go `getOriginPrefix`: the phrase truncated to `PrefixLength` (byte
truncation in the ASCII path coincides with code-point truncation). -/
def getOriginPrefixStr (s : SymSpellStore) (cp : CandState) : GoStr :=
  if cp.phraseLen > (s.PrefixLength : ℤ) then cp.phrase.take s.PrefixLength else cp.phrase

/-- The selection loop of `finalizeWithFrequencyCheck`: find the best
alternative among suggestions with distance in 1..2 and count at least
`exCount * FrequencyMultiplier`, preferring higher count, then smaller
distance. -/
def bestAlternativeFold (fm exCount : ℤ) (l : List SuggestItem) : Option SuggestItem :=
  l.foldl
    (fun best sug =>
      if sug.Distance = 0 then best
      else if sug.Distance ≤ 2 ∧ sug.Count ≥ exCount * fm then
        match best with
        | none => some sug
        | some b =>
          if sug.Count > b.Count ∨ (sug.Count = b.Count ∧ sug.Distance < b.Distance) then
            some sug
          else some b
      else best)
    none

/-- Go `finalizeWithFrequencyCheck`: when an exact match exists together with
other suggestions and a sufficiently frequent near alternative, remove every
distance-0 suggestion. -/
def finalizeWithFrequencyCheck (s : SymSpellStore) (cp : CandState)
    (exact : Option SuggestItem) : CandState :=
  match exact with
  | none => cp
  | some ex =>
    if cp.suggestions.length ≤ 1 then cp
    else
      match bestAlternativeFold s.FrequencyMultiplier ex.Count cp.suggestions with
      | none => cp
      | some _ => { cp with suggestions := cp.suggestions.filter (fun x => decide (x.Distance ≠ 0)) }

/-- Go `sortCandidate`: sort the suggestions when there is more than one. -/
def sortCandidateFn (cp : CandState) : CandState :=
  if 1 < cp.suggestions.length then { cp with suggestions := sortSuggestions cp.suggestions }
  else cp

/-- Go `checkSuggestionToSkip`. -/
def checkSuggestionToSkip (s : SymSpellStore) (cp : CandState)
    (suggestion candidate : GoStr) : Bool :=
  if goAbs (cp.suggestionLen - cp.phraseLen) > cp.maxEditDistance2 ∨
      cp.suggestionLen < cp.candidateLen ∨
      (cp.suggestionLen = cp.candidateLen ∧ suggestion ≠ candidate) then true
  else if min cp.suggestionLen (s.PrefixLength : ℤ) > cp.phraseLen ∧
      min cp.suggestionLen (s.PrefixLength : ℤ) - cp.candidateLen > cp.maxEditDistance2 then
    true
  else false

/-- Go `updateMinDistance`. -/
def updateMinDistanceFn (s : SymSpellStore) (maxEditDistance : ℤ) (cp : CandState) :
    CandState :=
  if (s.PrefixLength : ℤ) - maxEditDistance = cp.candidateLen then
    { cp with minDistance := min cp.phraseLen cp.suggestionLen - (s.PrefixLength : ℤ) }
  else { cp with minDistance := 0 }

/-- Common core of `checkProcessShouldSkip` over a token sequence (runes for
the unicode path, UTF-8 bytes for the ASCII path); `plen`/`qlen` are the
corresponding lengths and `md` the current `minDistance`.  Negative indices
cannot occur on the guarded paths (`md > 0` implies the lengths are at least
`md`), so `toNat` is exact there. -/
def suffixSkip (p q : List ℕ) (plen qlen md : ℤ) : Bool :=
  if 1 < md ∧ p.drop (plen + 1 - md).toNat ≠ q.drop (qlen + 1 - md).toNat then true
  else if 0 < md ∧ p.getD (plen - md).toNat 0 ≠ q.getD (qlen - md).toNat 0 then
    decide (p.getD (plen - md - 1).toNat 0 ≠ q.getD (qlen - md).toNat 0 ∨
      p.getD (plen - md).toNat 0 ≠ q.getD (qlen - md - 1).toNat 0)
  else false

/-- Go `checkProcessShouldSkip` (prefix-skip heuristic), dispatching on the
unicode flag exactly as the two textually parallel Go paths do. -/
def checkProcessShouldSkipFn (cp : CandState) (suggestion : GoStr) : Bool :=
  if cp.unicode then suffixSkip cp.phrase suggestion cp.phraseLen cp.suggestionLen cp.minDistance
  else
    suffixSkip (utf8Bytes cp.phrase) (utf8Bytes suggestion) cp.phraseLen cp.suggestionLen
      cp.minDistance

/-- Go `checkFirstRuneDistance`, distance part: `phraseLen` minus one if the
first rune (byte, in the ASCII path) of the suggestion occurs in the phrase. -/
def setFirstRuneDistance (cp : CandState) (suggestion : GoStr) : CandState :=
  if cp.unicode then
    { cp with distance :=
        if suggestion.headD 0 ∈ cp.phrase then cp.phraseLen - 1 else cp.phraseLen }
  else
    { cp with distance :=
        if (utf8Bytes suggestion).headD 0 ∈ utf8Bytes cp.phrase then cp.phraseLen - 1
        else cp.phraseLen }

/-- Go `distanceCompare`: the bounded kernel distance, or `-1` when it
exceeds the bound.  The kernel's bound parameter is a `ℕ`; for a negative
`maxDistance` Go's kernel returns `maxDistance + 1 > maxDistance` on every
input reaching it, and this model likewise returns `-1` in that case (the
kernel value is always nonnegative), so the two agree for every argument. -/
def distanceCompare (a b : GoStr) (maxDistance : ℤ) : ℤ :=
  let d : ℤ := (goDistanceMax DamerauLevenshtein a b maxDistance.toNat : ℕ)
  if d > maxDistance then -1 else d

/-- Go `updateBestSuggestion`: `Closest` clears worse suggestions; `Top`
keeps exactly one slot and reports that the caller should not append. -/
def updateBestSuggestion (cp : CandState) (suggestionCount : ℤ) (item : SuggestItem) :
    Bool × CandState :=
  if cp.verbosity = Verbosity.Closest then
    if cp.distance < cp.maxEditDistance2 then (false, { cp with suggestions := [] })
    else (false, cp)
  else if cp.verbosity = Verbosity.Top then
    if cp.distance < cp.maxEditDistance2 ∨
        suggestionCount > (cp.suggestions.getD 0 ⟨[], 0, 0⟩).Count then
      (true, { cp with maxEditDistance2 := cp.distance, suggestions := cp.suggestions.set 0 item })
    else (true, cp)
  else (false, cp)

/-- Go `updateSuggestions`: integrate an accepted suggestion according to the
verbosity rules, tightening `maxEditDistance2` when the verbosity is not
`All`. -/
def updateSuggestionsFn (s : SymSpellStore) (idx : ℕ) (suggestion : GoStr) (cp : CandState) :
    CandState :=
  let suggestionCount := s.counts.getD idx 0
  let item : SuggestItem := ⟨suggestion, cp.distance, (suggestionCount : ℤ)⟩
  let r :=
    if 0 < cp.suggestions.length then updateBestSuggestion cp (suggestionCount : ℤ) item
    else (false, cp)
  if r.1 then r.2
  else
    let cp2 :=
      if r.2.verbosity ≠ Verbosity.All then { r.2 with maxEditDistance2 := r.2.distance }
      else r.2
    { cp2 with suggestions := cp2.suggestions ++ [item] }

/-- Go `addEditDistance`: enqueue every single-deletion variant of the
candidate not yet in the considered-deletes set (byte splicing in the ASCII
path coincides with code-point splicing, since candidates derive from the
phrase, which is ASCII on that path). -/
def addEditDistanceFn (candidate : GoStr) (cp : CandState) : CandState :=
  (List.range candidate.length).foldl
    (fun st i =>
      let deleteItem := candidate.take i ++ candidate.drop (i + 1)
      if deleteItem ∈ st.consideredDeletes then st
      else
        { st with
          consideredDeletes := st.consideredDeletes ++ [deleteItem]
          candidates := st.candidates ++ [deleteItem] })
    cp

/-- Processing of one posting (`idx = DeletesData[di]`) inside
`processCandidate`: the suggestion filter chain and distance computation of
the Go loop body. -/
def processPosting (s : SymSpellStore) (maxEditDistance : ℤ) (candidate : GoStr)
    (cp : CandState) (di : ℕ) : CandState :=
  let idx := s.DeletesData.getD di 0
  let suggestion := s.words.getD idx []
  if suggestion = cp.phrase then cp
  else
    let cp1 := { cp with suggestionLen := strLen cp.unicode suggestion }
    if checkSuggestionToSkip s cp1 suggestion candidate then cp1
    else
      let cp2 := { cp1 with distance := 0, minDistance := 0 }
      if cp2.candidateLen = 0 then
        let cp3 := { cp2 with distance := max cp2.phraseLen cp2.suggestionLen }
        if cp3.distance > cp3.maxEditDistance2 then cp3
        else if suggestion ∈ cp3.consideredSuggestions then cp3
        else if cp3.distance ≤ cp3.maxEditDistance2 then updateSuggestionsFn s idx suggestion cp3
        else cp3
      else if cp2.suggestionLen = 1 then
        let cp3 := setFirstRuneDistance cp2 suggestion
        if cp3.distance > cp3.maxEditDistance2 ∨ suggestion ∈ cp3.consideredSuggestions then cp3
        else if cp3.distance ≤ cp3.maxEditDistance2 then updateSuggestionsFn s idx suggestion cp3
        else cp3
      else
        let cp3 := updateMinDistanceFn s maxEditDistance cp2
        if (s.PrefixLength : ℤ) - maxEditDistance = cp3.candidateLen ∧
            checkProcessShouldSkipFn cp3 suggestion then cp3
        else if suggestion ∈ cp3.consideredSuggestions then cp3
        else
          let cp4 :=
            { cp3 with consideredSuggestions := cp3.consideredSuggestions ++ [suggestion] }
          let cp5 :=
            { cp4 with distance := distanceCompare cp4.phrase suggestion cp4.maxEditDistance2 }
          if cp5.distance < 0 then cp5
          else if cp5.distance ≤ cp5.maxEditDistance2 then updateSuggestionsFn s idx suggestion cp5
          else cp5

/-- Go `processCandidate`: the FIFO frontier loop over the candidate queue,
with explicit fuel (each iteration consumes one unit; fuel exhaustion stops
the loop with the state reached so far). -/
def processLoop (s : SymSpellStore) (maxEditDistance : ℤ) : ℕ → CandState → CandState
  | 0, cp => cp
  | fuel + 1, cp =>
    if cp.candidatePointer < cp.candidates.length then
      let candidate := cp.candidates.getD cp.candidatePointer []
      let cp1 :=
        { cp with
          candidatePointer := cp.candidatePointer + 1
          candidateLen := strLen cp.unicode candidate }
      let cp2 := { cp1 with lenDiff := cp1.phraseLen - cp1.candidateLen }
      if cp2.lenDiff > cp2.maxEditDistance2 then
        if cp2.verbosity = Verbosity.All then processLoop s maxEditDistance fuel cp2
        else cp2
      else
        let cp3 :=
          match lookupA s.DeletesIdx candidate with
          | some ol =>
            (List.range' ol.1 ol.2).foldl (processPosting s maxEditDistance candidate) cp2
          | none => cp2
        let cp4 :=
          if cp3.lenDiff ≤ maxEditDistance ∧ cp3.candidateLen ≤ (s.PrefixLength : ℤ) then
            if cp3.verbosity ≠ Verbosity.All ∧ cp3.lenDiff ≥ cp3.maxEditDistance2 then cp3
            else addEditDistanceFn candidate cp3
          else cp3
        processLoop s maxEditDistance fuel cp4
    else cp

/-- Go `topCache.Get`: on a hit, move the entry to the front (recency) and
return it. -/
def cacheGet (cache : List (GoStr × SuggestItem)) (key : GoStr) :
    Option SuggestItem × List (GoStr × SuggestItem) :=
  match lookupA cache key with
  | some item => (some item, (key, item) :: eraseA cache key)
  | none => (none, cache)

/-- Go `topCache.Add`: update-and-move-to-front when present, else push to
the front and evict the least recently used entry beyond the capacity. -/
def cacheAdd (cap : ℕ) (cache : List (GoStr × SuggestItem)) (key : GoStr)
    (val : SuggestItem) : List (GoStr × SuggestItem) :=
  if (lookupA cache key).isSome then (key, val) :: eraseA cache key
  else
    let c2 := (key, val) :: cache
    if cap < c2.length then c2.dropLast else c2

/-- Go method `Lookup(phrase, verbosity, maxEditDistance)`: returns the
suggestion list (or the out-of-range error) together with the updated
top-result cache state. -/
def goLookup (s : SymSpellStore) (cache : List (GoStr × SuggestItem)) (phrase : GoStr)
    (v : Verbosity) (maxEditDistance : ℤ) (fuel : ℕ) :
    Except String (List SuggestItem) × List (GoStr × SuggestItem) :=
  if maxEditDistance > (s.MaxDictionaryEditDistance : ℤ) then
    (Except.error ("distance too large"), cache)
  else
    match (if v = Verbosity.Top then cacheGet cache phrase else (none, cache)) with
    | (some item, cache2) => (Except.ok [item], cache2)
    | (none, cache2) =>
      let cp := acquireCandidateProcessor maxEditDistance v phrase
      if cp.phraseLen - maxEditDistance > s.maxLength then (Except.ok cp.suggestions, cache2)
      else
        let em := checkExactMatchFn s phrase v cp
        if em.1 then (Except.ok em.2.2.suggestions, cache2)
        else if maxEditDistance = 0 then (Except.ok em.2.2.suggestions, cache2)
        else
          let cp1 := { em.2.2 with
            consideredSuggestions := em.2.2.consideredSuggestions ++ [phrase] }
          let cp2 := { cp1 with candidates := cp1.candidates ++ [getOriginPrefixStr s cp1] }
          let cp3 := processLoop s maxEditDistance fuel cp2
          let cp4 := finalizeWithFrequencyCheck s cp3 em.2.1
          let cp5 := sortCandidateFn cp4
          let cache3 :=
            if v = Verbosity.Top ∧ 0 < cp5.suggestions.length then
              cacheAdd 128 cache2 phrase (cp5.suggestions.getD 0 ⟨[], 0, 0⟩)
            else cache2
          (Except.ok cp5.suggestions, cache3)
/-! ### Lookup result analysis: shared lemmas -/

/-- Go `checkExactMatch` when the phrase is absent from the term store. -/
lemma checkExact_notfound (s : SymSpellStore) (phrase : GoStr) (v : Verbosity)
    (cp : CandState) (h : lookupA s.Words phrase = none) :
    checkExactMatchFn s phrase v cp = (false, none, cp) := by
  simp only [checkExactMatchFn, h]

/-- Go `checkExactMatch` when the phrase is present: the exact item it reports. -/
lemma checkExact_exact_eq (s : SymSpellStore) (phrase : GoStr) (v : Verbosity)
    (cp : CandState) (idx : ℕ) (h : lookupA s.Words phrase = some idx) :
    (checkExactMatchFn s phrase v cp).2.1 =
      some ⟨phrase, 0, (s.counts.getD idx 0 : ℤ)⟩ := by
  simp only [checkExactMatchFn, h]
  split <;> rfl

/-- Go `checkExactMatch` when the phrase is present: the appended suggestion. -/
lemma checkExact_suggestions_eq (s : SymSpellStore) (phrase : GoStr) (v : Verbosity)
    (cp : CandState) (idx : ℕ) (h : lookupA s.Words phrase = some idx) :
    (checkExactMatchFn s phrase v cp).2.2.suggestions =
      cp.suggestions ++ [⟨phrase, 0, (s.counts.getD idx 0 : ℤ)⟩] := by
  simp only [checkExactMatchFn, h]
  split <;> rfl

/-- The suggestion list after `checkExactMatch` extends the incoming one by at
most the distance-0 exact item. -/
lemma checkExact_suggestions_cases (s : SymSpellStore) (phrase : GoStr) (v : Verbosity)
    (cp : CandState) :
    (checkExactMatchFn s phrase v cp).2.2.suggestions = cp.suggestions ∨
    ∃ c : ℤ, (checkExactMatchFn s phrase v cp).2.2.suggestions =
      cp.suggestions ++ [⟨phrase, 0, c⟩] := by
  cases h : lookupA s.Words phrase with
  | none => rw [checkExact_notfound s phrase v cp h]; exact Or.inl rfl
  | some idx =>
    exact Or.inr ⟨(s.counts.getD idx 0 : ℤ), checkExact_suggestions_eq s phrase v cp idx h⟩

/-- The selection fold of `finalizeWithFrequencyCheck` returns a best
alternative as soon as its accumulator is occupied or a qualifying suggestion
occurs in the remaining list. -/
lemma bestFold_aux (fm exCount : ℤ) :
    ∀ (l : List SuggestItem) (acc : Option SuggestItem),
      (acc.isSome = true ∨
        ∃ x, x ∈ l ∧ x.Distance ≠ 0 ∧ x.Distance ≤ 2 ∧ x.Count ≥ exCount * fm) →
      (l.foldl
        (fun best sug =>
          if sug.Distance = 0 then best
          else if sug.Distance ≤ 2 ∧ sug.Count ≥ exCount * fm then
            match best with
            | none => some sug
            | some b =>
              if sug.Count > b.Count ∨ (sug.Count = b.Count ∧ sug.Distance < b.Distance) then
                some sug
              else some b
          else best)
        acc).isSome = true := by
  intro l
  induction l with
  | nil =>
    intro acc h
    rcases h with h | ⟨x, hx, _⟩
    · simpa using h
    · cases hx
  | cons a t ih =>
    intro acc h
    rw [List.foldl_cons]
    apply ih
    rcases h with hacc | ⟨x, hx, hd0, hd2, hc⟩
    · left
      rcases Option.isSome_iff_exists.mp hacc with ⟨b, hb⟩
      subst hb
      by_cases h1 : a.Distance = 0
      · rw [if_pos h1]; rfl
      · rw [if_neg h1]
        by_cases h2 : a.Distance ≤ 2 ∧ a.Count ≥ exCount * fm
        · rw [if_pos h2]
          show (if a.Count > b.Count ∨ (a.Count = b.Count ∧ a.Distance < b.Distance) then
            some a else some b).isSome = true
          split <;> rfl
        · rw [if_neg h2]; rfl
    · rcases List.mem_cons.mp hx with hxa | hxt
      · left
        rw [← hxa, if_neg hd0, if_pos ⟨hd2, hc⟩]
        cases acc with
        | none => rfl
        | some b =>
          show (if x.Count > b.Count ∨ (x.Count = b.Count ∧ x.Distance < b.Distance) then
            some x else some b).isSome = true
          split <;> rfl
      · exact Or.inr ⟨x, hxt, hd0, hd2, hc⟩

/-- If a qualifying suggestion is in the list, the selection loop finds some
best alternative. -/
lemma bestAlternativeFold_isSome (fm exCount : ℤ) (l : List SuggestItem)
    (x : SuggestItem) (hx : x ∈ l) (h0 : x.Distance ≠ 0) (h2 : x.Distance ≤ 2)
    (hc : x.Count ≥ exCount * fm) :
    (bestAlternativeFold fm exCount l).isSome = true := by
  unfold bestAlternativeFold
  exact bestFold_aux fm exCount l none (Or.inr ⟨x, hx, h0, h2, hc⟩)

/-- If the finalized list still contains a suggestion of distance 1 or 2 whose
count reaches `ex.Count * FrequencyMultiplier`, it contains no distance-0
entry. -/
lemma finalize_no_exact (s : SymSpellStore) (cp : CandState) (ex x : SuggestItem)
    (hx : x ∈ (finalizeWithFrequencyCheck s cp (some ex)).suggestions)
    (hd : x.Distance = 1 ∨ x.Distance = 2)
    (hc : x.Count ≥ ex.Count * s.FrequencyMultiplier) :
    ∀ y ∈ (finalizeWithFrequencyCheck s cp (some ex)).suggestions, y.Distance ≠ 0 := by
  have hd0 : x.Distance ≠ 0 := by omega
  have hd2 : x.Distance ≤ 2 := by omega
  simp only [finalizeWithFrequencyCheck] at hx ⊢
  by_cases hlen : cp.suggestions.length ≤ 1
  · rw [if_pos hlen] at hx ⊢
    intro y hy
    have hxy : y = x := by
      cases hls : cp.suggestions with
      | nil => rw [hls] at hx; cases hx
      | cons a t =>
        cases t with
        | nil =>
          rw [hls] at hx hy
          have h1 : x = a := by simpa using hx
          have h2 : y = a := by simpa using hy
          rw [h1, h2]
        | cons b t2 => rw [hls] at hlen; simp at hlen
    rw [hxy]
    omega
  · rw [if_neg hlen] at hx ⊢
    cases hb : bestAlternativeFold s.FrequencyMultiplier ex.Count cp.suggestions with
    | none =>
      simp only [hb] at hx
      have := bestAlternativeFold_isSome s.FrequencyMultiplier ex.Count cp.suggestions x hx
        hd0 hd2 hc
      rw [hb] at this
      cases this
    | some b =>
      simp only [hb]
      intro y hy
      have := List.mem_filter.mp hy
      simpa using this.2

/-- Membership is invariant under `sortCandidate` (it either keeps the list or
permutes it). -/
lemma sortCandidate_mem (cp : CandState) (x : SuggestItem) :
    x ∈ (sortCandidateFn cp).suggestions ↔ x ∈ cp.suggestions := by
  unfold sortCandidateFn
  split
  · exact (List.perm_insertionSort suggOrder cp.suggestions).mem_iff
  · exact Iff.rfl

/-- The suggestion list after `sortCandidate` is pairwise ordered by the sort
comparison (a list of at most one element is left as it is, and is trivially
ordered). -/
lemma sortCandidate_pairwise (cp : CandState) :
    ((sortCandidateFn cp).suggestions).Pairwise suggOrder := by
  unfold sortCandidateFn
  split
  · exact List.sorted_insertionSort suggOrder cp.suggestions
  · next h =>
    cases hls : cp.suggestions with
    | nil => exact List.Pairwise.nil
    | cons a t =>
      cases t with
      | nil => simp
      | cons b t2 => rw [hls] at h; simp at h

/-- The initial candidate-processor state has an empty suggestion list. -/
lemma acquire_suggestions (maxEditDistance : ℤ) (v : Verbosity) (phrase : GoStr) :
    (acquireCandidateProcessor maxEditDistance v phrase).suggestions = [] := rfl

/-- C2.  For every store, if `Lookup` finds an exact match for the phrase and
the returned list contains a non-exact suggestion with distance 1 or 2 whose
count is at least `exactMatch.Count * FrequencyMultiplier`, then the returned
list contains no distance-0 item (the exact match is dropped), for every
verbosity including `All`. -/
theorem claimC2_exact_match_dropped (s : SymSpellStore)
    (cache : List (GoStr × SuggestItem)) (phrase : GoStr) (v : Verbosity) (k : ℤ)
    (fuel : ℕ) (idx : ℕ) (L : List SuggestItem) (x : SuggestItem)
    (hw : lookupA s.Words phrase = some idx)
    (hres : (goLookup s cache phrase v k fuel).1 = Except.ok L)
    (hxL : x ∈ L) (hxd : x.Distance = 1 ∨ x.Distance = 2)
    (hxc : x.Count ≥ (s.counts.getD idx 0 : ℤ) * s.FrequencyMultiplier) :
    ∀ y ∈ L, y.Distance ≠ 0 := by
  unfold goLookup at hres
  split at hres
  · simp at hres
  · split at hres
    · next item cache2 heq =>
      simp only at hres
      rw [Except.ok.injEq] at hres
      subst hres
      intro y hy
      have hxi : x = item := by simpa using hxL
      have hyi : y = item := by simpa using hy
      rw [hyi, ← hxi]
      omega
    · next cache2 heq =>
      simp only at hres
      split at hres
      · -- length gate: empty result
        rw [Except.ok.injEq, acquire_suggestions] at hres
        subst hres
        cases hxL
      · split at hres
        · -- exact-match stop: the result is the single distance-0 item
          rw [Except.ok.injEq,
            checkExact_suggestions_eq s phrase v _ idx hw, acquire_suggestions] at hres
          subst hres
          have : x = (⟨phrase, 0, (s.counts.getD idx 0 : ℤ)⟩ : SuggestItem) := by
            simpa using hxL
          rw [this] at hxd
          simp at hxd
        · split at hres
          · -- maxEditDistance = 0: same single-item result
            rw [Except.ok.injEq,
              checkExact_suggestions_eq s phrase v _ idx hw, acquire_suggestions] at hres
            subst hres
            have : x = (⟨phrase, 0, (s.counts.getD idx 0 : ℤ)⟩ : SuggestItem) := by
              simpa using hxL
            rw [this] at hxd
            simp at hxd
          · -- main search path: finalize followed by sort
            simp only at hres
            rw [Except.ok.injEq] at hres
            subst hres
            rw [checkExact_exact_eq s phrase v _ idx hw] at hxL ⊢
            intro y hy
            rw [sortCandidate_mem] at hxL hy
            exact finalize_no_exact s _ _ x hxL hxd hxc y hy

/-- Go `checkExactMatch` reports a stop exactly when the phrase is stored, the
verbosity is not `All`, and the stored count reaches `FrequencyThreshold`. -/
lemma checkExact_stop (s : SymSpellStore) (phrase : GoStr) (v : Verbosity)
    (cp : CandState) (idx : ℕ) (hw : lookupA s.Words phrase = some idx)
    (hv : v ≠ Verbosity.All)
    (hft : s.FrequencyThreshold ≤ (s.counts.getD idx 0 : ℤ)) :
    (checkExactMatchFn s phrase v cp).1 = true := by
  simp only [checkExactMatchFn, hw]
  rw [if_pos ⟨hv, hft⟩]

/-- C3.  A phrase stored with count at least `FrequencyThreshold`, looked up
with verbosity other than `All` and a valid positive bound (for `Top`, with no
cached entry), is returned immediately as the single distance-0 suggestion. -/
theorem claimC3_exact_match_early_return (s : SymSpellStore)
    (cache : List (GoStr × SuggestItem)) (phrase : GoStr) (v : Verbosity) (k : ℤ)
    (fuel : ℕ) (idx : ℕ)
    (hw : lookupA s.Words phrase = some idx)
    (hft : s.FrequencyThreshold ≤ (s.counts.getD idx 0 : ℤ))
    (hv : v ≠ Verbosity.All)
    (_hk0 : 0 < k) (hkM : k ≤ (s.MaxDictionaryEditDistance : ℤ))
    (hcache : v = Verbosity.Top → lookupA cache phrase = none)
    (hgate : strLen (!(goIsASCII phrase)) phrase - k ≤ s.maxLength) :
    (goLookup s cache phrase v k fuel).1 =
      Except.ok [⟨phrase, 0, (s.counts.getD idx 0 : ℤ)⟩] := by
  unfold goLookup
  rw [if_neg (not_lt.mpr hkM)]
  have hsc : (if v = Verbosity.Top then cacheGet cache phrase else (none, cache)) =
      (none, cache) := by
    by_cases hv2 : v = Verbosity.Top
    · rw [if_pos hv2]
      unfold cacheGet
      rw [hcache hv2]
    · rw [if_neg hv2]
  split
  · next item cache2 heq =>
    rw [hsc] at heq
    exact absurd heq (by simp)
  · next cache2 heq =>
    simp only [acquireCandidateProcessor]
    rw [if_neg (not_lt.mpr hgate)]
    rw [checkExact_stop s phrase v _ idx hw hv hft]
    rw [checkExact_suggestions_eq s phrase v _ idx hw]
    simp

/-- C4 (amended).  `Lookup` returns an error precisely when the requested
bound exceeds `MaxDictionaryEditDistance`; in particular a negative bound is
not rejected. -/
theorem claimC4_error_iff (s : SymSpellStore) (cache : List (GoStr × SuggestItem))
    (phrase : GoStr) (v : Verbosity) (k : ℤ) (fuel : ℕ) :
    (∃ e, (goLookup s cache phrase v k fuel).1 = Except.error e) ↔
      (s.MaxDictionaryEditDistance : ℤ) < k := by
  constructor
  · rintro ⟨e, he⟩
    by_contra hk
    unfold goLookup at he
    rw [if_neg hk] at he
    split at he
    · simp at he
    · simp only at he
      split at he
      · simp at he
      · split at he
        · simp at he
        · split at he
          · simp at he
          · simp only at he
            simp at he
  · intro hk
    refine ⟨"distance too large", ?_⟩
    unfold goLookup
    rw [if_pos hk]

/-- C4 counterexample: a negative bound does not fail; the call proceeds and
returns an ordinary (here empty) suggestion list. -/
theorem claimC4_counterexample :
    ((-1 : ℤ) < 0) ∧
      (goLookup (newStore 2 7 1 1000 10) [] [97] Verbosity.All (-1) 0).1 =
        Except.ok [] :=
  ⟨by decide, by rfl⟩

/-- C8.  Every suggestion list returned by `Lookup` is pairwise ordered by
distance ascending, then count descending. -/
theorem claimC8_result_sorted (s : SymSpellStore) (cache : List (GoStr × SuggestItem))
    (phrase : GoStr) (v : Verbosity) (k : ℤ) (fuel : ℕ) (L : List SuggestItem)
    (hres : (goLookup s cache phrase v k fuel).1 = Except.ok L) :
    L.Pairwise suggOrder := by
  unfold goLookup at hres
  split at hres
  · simp at hres
  · split at hres
    · next item cache2 heq =>
      simp only at hres
      rw [Except.ok.injEq] at hres
      subst hres
      simp
    · next cache2 heq =>
      simp only at hres
      split at hres
      · rw [Except.ok.injEq, acquire_suggestions] at hres
        subst hres
        simp
      · split at hres
        · rw [Except.ok.injEq] at hres
          rcases checkExact_suggestions_cases s phrase v
              (acquireCandidateProcessor k v phrase) with hc | ⟨c, hc⟩
          · rw [hc, acquire_suggestions] at hres
            subst hres
            simp
          · rw [hc, acquire_suggestions] at hres
            subst hres
            simp
        · split at hres
          · rw [Except.ok.injEq] at hres
            rcases checkExact_suggestions_cases s phrase v
                (acquireCandidateProcessor k v phrase) with hc | ⟨c, hc⟩
            · rw [hc, acquire_suggestions] at hres
              subst hres
              simp
            · rw [hc, acquire_suggestions] at hres
              subst hres
              simp
          · simp only at hres
            rw [Except.ok.injEq] at hres
            subst hres
            exact sortCandidate_pairwise _

/-- C10.  With verbosity `Top`, a cached phrase is answered from the top-result
cache alone: the cached item is returned for every in-range bound, regardless
of the item's own distance. -/
theorem claimC10_cache_hit_ignores_bound (s : SymSpellStore)
    (cache : List (GoStr × SuggestItem)) (phrase : GoStr) (k : ℤ) (fuel : ℕ)
    (it : SuggestItem)
    (hk : k ≤ (s.MaxDictionaryEditDistance : ℤ))
    (hit : lookupA cache phrase = some it) :
    (goLookup s cache phrase Verbosity.Top k fuel).1 = Except.ok [it] := by
  unfold goLookup
  rw [if_neg (not_lt.mpr hk)]
  have hsc : (if Verbosity.Top = Verbosity.Top then cacheGet cache phrase
      else (none, cache)) = (some it, (phrase, it) :: eraseA cache phrase) := by
    rw [if_pos rfl]
    unfold cacheGet
    rw [hit]
  rw [hsc]

/-! ### Concrete witness dictionaries -/

/-- A one-word dictionary: "b" with count 5 (`maxEditDistance` 1, prefix
length 2, `CountThreshold` 1, `FrequencyThreshold` 1000, multiplier 10). -/
def storeB5 : SymSpellStore := (createDictionaryEntry (newStore 1 2 1 1000 10) [98] 5).2

/-- The dictionary "a" (count 1), "b" (count 10). -/
def storeA1B10 : SymSpellStore :=
  (createDictionaryEntry ((createDictionaryEntry (newStore 1 2 1 1000 10) [97] 1).2) [98] 10).2

/-- The dictionary "a" (count 1), "b" (count 5). -/
def storeA1B5 : SymSpellStore :=
  (createDictionaryEntry ((createDictionaryEntry (newStore 1 2 1 1000 10) [97] 1).2) [98] 5).2

/-- A one-word dictionary: "a" with count 2000 (above `FrequencyThreshold`). -/
def storeA2000 : SymSpellStore := (createDictionaryEntry (newStore 1 2 1 1000 10) [97] 2000).2

/-- The top-result cache as left by a first lookup of "a" in `storeB5` with
bound 1: it stores the suggestion "b" at distance 1. -/
def cacheAfterFirst : List (GoStr × SuggestItem) :=
  (goLookup storeB5 [] [97] Verbosity.Top 1 3).2

/-- C2 witness: looking "a" up in `storeA1B10` (verbosity `All`, bound 1)
returns only the distance-1 suggestion "b"; its count 10 is ten times the
exact match's count, so the exact match is dropped. -/
theorem claimC2_witness :
    (goLookup storeA1B10 [] [97] Verbosity.All 1 3).1 = Except.ok [⟨[98], 1, 10⟩] ∧
      (⟨[98], 1, 10⟩ : SuggestItem).Distance ≠ 0 :=
  ⟨by rfl,
   claimC2_exact_match_dropped storeA1B10 [] [97] Verbosity.All 1 3 0
     [⟨[98], 1, 10⟩] ⟨[98], 1, 10⟩ (by decide) (by rfl) (by decide) (by decide) (by decide)
     ⟨[98], 1, 10⟩ (by decide)⟩

/-- C3 witness: "a" is stored in `storeA2000` with count 2000 ≥ 1000, so a
`Top` lookup with bound 1 returns it alone, at distance 0, immediately. -/
theorem claimC3_witness :
    (goLookup storeA2000 [] [97] Verbosity.Top 1 0).1 = Except.ok [⟨[97], 0, 2000⟩] := by
  have h := claimC3_exact_match_early_return storeA2000 [] [97] Verbosity.Top 1 0 0
    (by decide) (by decide) (by decide) (by decide) (by decide) (fun h2 => by rfl) (by decide)
  exact h.trans (by rfl)

/-- C8 witness: the two-word lookup result of "a" in `storeA1B5` (verbosity
`All`) comes back ordered by distance, then count. -/
theorem claimC8_witness :
    ([⟨[97], 0, 1⟩, ⟨[98], 1, 5⟩] : List SuggestItem).Pairwise suggOrder :=
  claimC8_result_sorted storeA1B5 [] [97] Verbosity.All 1 3
    [⟨[97], 0, 1⟩, ⟨[98], 1, 5⟩] (by rfl)

/-- C10 witness: after a first `Top` lookup of "a" with bound 1 cached the
distance-1 suggestion "b", a second `Top` lookup of "a" with the valid bound 0
returns that cached item although its distance 1 exceeds the bound 0. -/
theorem claimC10_witness :
    (goLookup storeB5 cacheAfterFirst [97] Verbosity.Top 0 3).1 =
        Except.ok [⟨[98], 1, 5⟩] ∧
      (⟨[98], 1, 5⟩ : SuggestItem).Distance > 0 :=
  ⟨claimC10_cache_hit_ignores_bound storeB5 cacheAfterFirst [97] 0 3 ⟨[98], 1, 5⟩
    (by decide) (by rfl), by decide⟩
